import Mathlib

/-!
# Raycasting.c : a verification development

A shallow embedding of `src/Raycasting.c` (boundaries, rays, the segment/ray
intersection `ray2d_cast`, the particle and its fan of rays, the scan
`particle_look`, and the ring buffer `Trail2D`), followed by theorems about it.

`float` values are read as elements of an arbitrary linearly ordered field `K`
(the rationals for evaluation, the reals for the geometric statements), so all
arithmetic is exact.  The C library functions `cosf`, `sinf`, `sqrtf` and the
raylib constant `DEG2RAD`, which the source uses but does not define, are the
fields of a `MathEnv` passed to the functions that call them.
-/

set_option autoImplicit false

namespace Raycasting

/-! ## Data model -/

/-- The raylib type `Vector2`: two `float` coordinates. -/
structure Vector2 (K : Type) where
  x : K
  y : K

/-- The value of the initialiser `{0}` for a `Vector2`. -/
def Vector2.zero {K : Type} [LinearOrderedField K] : Vector2 K := ⟨0, 0⟩

/-- The struct `Boundary` of the source: a wall from `begin` to `end`. -/
structure Boundary (K : Type) where
  «begin» : Vector2 K
  «end» : Vector2 K

/-- The struct `Ray2D` of the source: an origin `pos` and a direction `dir`. -/
structure Ray2D (K : Type) where
  pos : Vector2 K
  dir : Vector2 K

/-- The library items the source uses without defining them: `cosf`, `sinf`,
`sqrtf` of the C library and raylib's constant `DEG2RAD` (which is `PI/180`). -/
structure MathEnv (K : Type) where
  cosf : K → K
  sinf : K → K
  sqrtf : K → K
  DEG2RAD : K

/-- The function `boundary_init` of the source. -/
def boundary_init {K : Type} (x1 y1 x2 y2 : K) : Boundary K :=
  { «begin» := ⟨x1, y1⟩, «end» := ⟨x2, y2⟩ }

/-- The function `ray2d_init` of the source: the ray from `pos` at `angle_deg`
degrees, of length `len = 1`. -/
def ray2d_init {K : Type} [LinearOrderedField K] (env : MathEnv K)
    (pos : Vector2 K) (angle_deg : K) : Ray2D K :=
  let angle_rad := angle_deg * env.DEG2RAD
  let len : K := 1
  { pos := pos, dir := ⟨env.cosf angle_rad * len, env.sinf angle_rad * len⟩ }

/-- The local `denom` of `ray2d_cast`. -/
def ray2d_cast_denom {K : Type} [LinearOrderedField K] (ray : Ray2D K) (wall : Boundary K) : K :=
  let x1 := wall.begin.x
  let y1 := wall.begin.y
  let x2 := wall.end.x
  let y2 := wall.end.y
  let x3 := ray.pos.x
  let y3 := ray.pos.y
  let x4 := ray.pos.x + ray.dir.x
  let y4 := ray.pos.y + ray.dir.y
  (x1 - x2) * (y3 - y4) - (y1 - y2) * (x3 - x4)

/-- The local `t` of `ray2d_cast` after `t /= denom`. -/
def ray2d_cast_t {K : Type} [LinearOrderedField K] (ray : Ray2D K) (wall : Boundary K) : K :=
  let x1 := wall.begin.x
  let y1 := wall.begin.y
  let x3 := ray.pos.x
  let y3 := ray.pos.y
  let x4 := ray.pos.x + ray.dir.x
  let y4 := ray.pos.y + ray.dir.y
  ((x1 - x3) * (y3 - y4) - (y1 - y3) * (x3 - x4)) / ray2d_cast_denom ray wall

/-- The local `u` of `ray2d_cast` after `u /= denom`. -/
def ray2d_cast_u {K : Type} [LinearOrderedField K] (ray : Ray2D K) (wall : Boundary K) : K :=
  let x1 := wall.begin.x
  let y1 := wall.begin.y
  let x2 := wall.end.x
  let y2 := wall.end.y
  let x3 := ray.pos.x
  let y3 := ray.pos.y
  (-((x1 - x2) * (y1 - y3) - (y1 - y2) * (x1 - x3))) / ray2d_cast_denom ray wall

/-- The function `ray2d_cast` of the source, called with a non-null `intersect`:
the argument `intersect` is the value `*intersect` holds before the call, the
result is the returned `bool` and the value `*intersect` holds after it. -/
def ray2d_cast {K : Type} [LinearOrderedField K] (ray : Ray2D K) (wall : Boundary K)
    (intersect : Vector2 K) : Bool × Vector2 K :=
  let x1 := wall.begin.x
  let y1 := wall.begin.y
  let x2 := wall.end.x
  let y2 := wall.end.y
  let denom := ray2d_cast_denom ray wall
  if denom = 0 then
    (false, intersect)
  else
    let t := ray2d_cast_t ray wall
    let u := ray2d_cast_u ray wall
    if t > 0 ∧ t < 1 ∧ u > 0 then
      (true, ⟨x1 + t * (x2 - x1), y1 + t * (y2 - y1)⟩)
    else
      (false, intersect)

/-! ## The particle and its fan of rays -/

/-- The constant `RAYS_COUNT` of the source. -/
def RAYS_COUNT : Nat := 360

/-- The struct `Particle` of the source: a position and `RAYS_COUNT` rays. -/
structure Particle (K : Type) where
  pos : Vector2 K
  rays : Fin RAYS_COUNT → Ray2D K

/-- The function `particle_init` of the source: starting from the all-zero particle,
the loop over `i = 0 .. RAYS_COUNT-1` stores `ray2d_init(particle.pos, SLICE * i)`
in `rays[i]`, where `SLICE` is `360.0f / (float)RAYS_COUNT`. -/
def particle_init {K : Type} [LinearOrderedField K] (env : MathEnv K) (x y : K) : Particle K :=
  let pos : Vector2 K := ⟨x, y⟩
  let rays : Fin RAYS_COUNT → Ray2D K := fun _ => ⟨Vector2.zero, Vector2.zero⟩
  { pos := pos,
    rays := (List.finRange RAYS_COUNT).foldl
      (fun (rays : Fin RAYS_COUNT → Ray2D K) (i : Fin RAYS_COUNT) =>
        let angle := (360 / (RAYS_COUNT : K)) * ((i : Nat) : K)
        Function.update rays i (ray2d_init env pos angle))
      rays }

/-- The function `particle_update_pos` of the source: the position is overwritten,
then the loop over `i = 0 .. RAYS_COUNT-1` stores `ray2d_init(particle->pos, slice * i)`
in `rays[i]`, where `slice` is `360.0f / (float)RAYS_COUNT`. -/
def particle_update_pos {K : Type} [LinearOrderedField K] (env : MathEnv K)
    (particle : Particle K) (x y : K) : Particle K :=
  let pos : Vector2 K := ⟨x, y⟩
  { pos := pos,
    rays := (List.finRange RAYS_COUNT).foldl
      (fun (rays : Fin RAYS_COUNT → Ray2D K) (i : Fin RAYS_COUNT) =>
        let slice := 360 / (RAYS_COUNT : K)
        let angle := slice * ((i : Nat) : K)
        Function.update rays i (ray2d_init env pos angle))
      particle.rays }

/-- The constant `TRAIL2D_MAX` of the source, `200UL`. -/
def TRAIL2D_MAX : Nat := 200

/-- Conversion of an `int` to `unsigned long` (64 bits), which C applies to the
left operand of `% TRAIL2D_MAX` because `TRAIL2D_MAX` is an `unsigned long`. -/
def to_ulong (i : Int) : Int := i % 18446744073709551616

/-- The struct `Trail2D` of the source: `TRAIL2D_MAX` points and the two `int`
indices `head` and `tail`. -/
structure Trail2D (K : Type) where
  points : Fin TRAIL2D_MAX → Vector2 K
  head : Int
  tail : Int

/-- The function `trail2d_init` of the source: the all-zero trail. -/
def trail2d_init {K : Type} [LinearOrderedField K] : Trail2D K :=
  { points := fun _ => Vector2.zero, head := 0, tail := 0 }

/-- The array access `trail->points[i]` for an `int` index: `none` when `i` is
outside `0 .. TRAIL2D_MAX-1`. -/
def trail2d_read {K : Type} (trail : Trail2D K) (i : Int) : Option (Vector2 K) :=
  if h : 0 ≤ i ∧ i < (TRAIL2D_MAX : Int) then
    some (trail.points ⟨i.toNat, by unfold TRAIL2D_MAX at h ⊢; omega⟩)
  else none

/-- The function `trail2d_add` of the source.  The result is `none` when the
write `points[tail]` would be out of range. -/
def trail2d_add {K : Type} (trail : Trail2D K) (new_pos : Vector2 K) : Option (Trail2D K) :=
  if h : 0 ≤ trail.tail ∧ trail.tail < (TRAIL2D_MAX : Int) then
    let points := Function.update trail.points
      ⟨trail.tail.toNat, by unfold TRAIL2D_MAX at h ⊢; omega⟩ new_pos
    let tail := trail.tail + 1
    let tail := to_ulong tail % (TRAIL2D_MAX : Int)
    if tail = trail.head then
      let head := trail.head + 1
      let head := to_ulong head % (TRAIL2D_MAX : Int)
      some { points := points, head := head, tail := tail }
    else
      some { points := points, head := trail.head, tail := tail }
  else none

/-- The successive calls `trail2d_add(trail, p)` for the points `p` of a list, in
order (`main` makes one such call per frame). -/
def trail2d_add_seq {K : Type} : Trail2D K → List (Vector2 K) → Option (Trail2D K)
  | trail, [] => some trail
  | trail, p :: ps => (trail2d_add trail p).bind fun trail' => trail2d_add_seq trail' ps

/-- The `while` loop of `trail2d_draw`, started with the local `head` at the given
value: the list of the `DrawLineEx(*p1, *p2, ...)` calls it makes, in order.  The
result is `none` when a read is out of range or when the loop has not ended after
`fuel` iterations. -/
def trail2d_draw_loop {K : Type} (trail : Trail2D K) :
    Nat → Int → Option (List (Vector2 K × Vector2 K))
  | 0, _ => none
  | fuel + 1, head =>
    if head ≠ trail.tail then
      let pos := head
      let pos_next := to_ulong (head + 1) % (TRAIL2D_MAX : Int)
      let head' := to_ulong (head + 1) % (TRAIL2D_MAX : Int)
      if pos_next ≠ trail.tail then
        match trail2d_read trail pos, trail2d_read trail pos_next with
        | some p1, some p2 =>
          (trail2d_draw_loop trail fuel head').map fun rest => (p1, p2) :: rest
        | _, _ => none
      else
        trail2d_draw_loop trail fuel head'
    else some []

/-- The function `trail2d_draw` of the source, with a bound `fuel` on the number
of iterations of its loop. -/
def trail2d_draw {K : Type} (fuel : Nat) (trail : Trail2D K) :
    Option (List (Vector2 K × Vector2 K)) :=
  trail2d_draw_loop trail fuel trail.head

/-- The points a traversal like that of `trail2d_draw` visits: starting with the
local `head` at the given value, the point in slot `head`, then `head` advances
by `head = (head + 1) % TRAIL2D_MAX`, until `head == tail`. -/
def trail2d_retained_loop {K : Type} (trail : Trail2D K) :
    Nat → Int → Option (List (Vector2 K))
  | 0, _ => none
  | fuel + 1, head =>
    if head ≠ trail.tail then
      match trail2d_read trail head with
      | some p =>
        (trail2d_retained_loop trail fuel (to_ulong (head + 1) % (TRAIL2D_MAX : Int))).map
          fun rest => p :: rest
      | none => none
    else some []

/-- The retained sequence of a trail: the slots from `head` up to but excluding
`tail`, in ring order (oldest to newest). -/
def trail2d_retained {K : Type} (fuel : Nat) (trail : Trail2D K) : Option (List (Vector2 K)) :=
  trail2d_retained_loop trail fuel trail.head

/-- The number of retained points, `(tail - head)` modulo `TRAIL2D_MAX`. -/
def trail2d_count {K : Type} (trail : Trail2D K) : Int :=
  (trail.tail - trail.head) % (TRAIL2D_MAX : Int)

/-- The slot of the ring that an integer designates modulo `TRAIL2D_MAX` (a total
accessor, used to state what the loops read). -/
def trail2d_slot {K : Type} (trail : Trail2D K) (i : Int) : Vector2 K :=
  trail.points ⟨(i % 200).toNat, by unfold TRAIL2D_MAX; omega⟩

/-- Both indices of the trail are valid indices of `points`. -/
def trail2d_in_range {K : Type} (trail : Trail2D K) : Prop :=
  0 ≤ trail.head ∧ trail.head < (TRAIL2D_MAX : Int) ∧
    0 ≤ trail.tail ∧ trail.tail < (TRAIL2D_MAX : Int)

/-- The slots `head, head+1, ...` (modulo `TRAIL2D_MAX`), as many as
`trail2d_count` says: the closed form of the retained sequence. -/
def trail2d_window {K : Type} (trail : Trail2D K) : List (Vector2 K) :=
  (List.range (trail2d_count trail).toNat).map fun (k : Nat) =>
    trail2d_slot trail (trail.head + (k : Int))

/-- The last `TRAIL2D_MAX - 1` elements of a list (all of it when it is shorter). -/
def keep_last {α : Type} (l : List α) : List α :=
  l.drop (l.length - (TRAIL2D_MAX - 1))

/-! ## The enclosing box -/

/-- The four border walls as `main` builds them in `walls[WALLS_COUNT + 0 .. 3]`, for
the rectangle with corners `(xa,ya)` and `(xb,yb)`; `main` takes `(0,0)` and
`(screen_width, screen_height)`. -/
def border_walls {K : Type} (xa ya xb yb : K) : List (Boundary K) :=
  [boundary_init xa ya xb ya, boundary_init xb ya xb yb,
   boundary_init xb yb xa yb, boundary_init xa yb xa ya]

/-- The four corners of the rectangle with corners `(xa,ya)` and `(xb,yb)`. -/
def border_corners {K : Type} (xa ya xb yb : K) : List (Vector2 K) :=
  [⟨xa, ya⟩, ⟨xb, ya⟩, ⟨xb, yb⟩, ⟨xa, yb⟩]

/-- The ray passes through the point `c`: `c = pos + s * dir` for some `s > 0`. -/
def ray2d_through {K : Type} [LinearOrderedField K] (ray : Ray2D K) (c : Vector2 K) : Prop :=
  ∃ s : K, 0 < s ∧ c.x = ray.pos.x + s * ray.dir.x ∧ c.y = ray.pos.y + s * ray.dir.y

/-! ## Theorems: the intersector -/

section Cast

variable {K : Type} [LinearOrderedField K]

theorem ray2d_cast_true_iff (ray : Ray2D K) (wall : Boundary K) (i0 : Vector2 K) :
    (ray2d_cast ray wall i0).1 = true ↔
      ray2d_cast_denom ray wall ≠ 0 ∧ 0 < ray2d_cast_t ray wall ∧
        ray2d_cast_t ray wall < 1 ∧ 0 < ray2d_cast_u ray wall := by
  unfold ray2d_cast
  by_cases hd : ray2d_cast_denom ray wall = 0
  · simp [hd]
  · by_cases hc : ray2d_cast_t ray wall > 0 ∧ ray2d_cast_t ray wall < 1 ∧
        ray2d_cast_u ray wall > 0
    · rw [if_neg hd, if_pos hc]
      exact ⟨fun _ => ⟨hd, hc⟩, fun _ => rfl⟩
    · rw [if_neg hd, if_neg hc]
      exact ⟨fun h => Bool.noConfusion h, fun h => absurd h.2 hc⟩

theorem ray2d_cast_point (ray : Ray2D K) (wall : Boundary K) (i0 : Vector2 K)
    (h : (ray2d_cast ray wall i0).1 = true) :
    (ray2d_cast ray wall i0).2 =
      ⟨wall.begin.x + ray2d_cast_t ray wall * (wall.end.x - wall.begin.x),
       wall.begin.y + ray2d_cast_t ray wall * (wall.end.y - wall.begin.y)⟩ := by
  have h' := (ray2d_cast_true_iff ray wall i0).1 h
  unfold ray2d_cast
  have hc : ray2d_cast_t ray wall > 0 ∧ ray2d_cast_t ray wall < 1 ∧
      ray2d_cast_u ray wall > 0 := ⟨h'.2.1, h'.2.2.1, h'.2.2.2⟩
  rw [if_neg h'.1, if_pos hc]

theorem ray2d_cast_on_ray (ray : Ray2D K) (wall : Boundary K)
    (hd : ray2d_cast_denom ray wall ≠ 0) :
    wall.begin.x + ray2d_cast_t ray wall * (wall.end.x - wall.begin.x) =
        ray.pos.x + ray2d_cast_u ray wall * ray.dir.x ∧
      wall.begin.y + ray2d_cast_t ray wall * (wall.end.y - wall.begin.y) =
        ray.pos.y + ray2d_cast_u ray wall * ray.dir.y := by
  have ht : ray2d_cast_t ray wall * ray2d_cast_denom ray wall =
      (wall.begin.x - ray.pos.x) * (ray.pos.y - (ray.pos.y + ray.dir.y)) -
        (wall.begin.y - ray.pos.y) * (ray.pos.x - (ray.pos.x + ray.dir.x)) := by
    unfold ray2d_cast_t
    exact div_mul_cancel₀ _ hd
  have hu : ray2d_cast_u ray wall * ray2d_cast_denom ray wall =
      -((wall.begin.x - wall.end.x) * (wall.begin.y - ray.pos.y) -
        (wall.begin.y - wall.end.y) * (wall.begin.x - ray.pos.x)) := by
    unfold ray2d_cast_u
    exact div_mul_cancel₀ _ hd
  have hdef : ray2d_cast_denom ray wall =
      (wall.begin.x - wall.end.x) * (ray.pos.y - (ray.pos.y + ray.dir.y)) -
        (wall.begin.y - wall.end.y) * (ray.pos.x - (ray.pos.x + ray.dir.x)) := rfl
  constructor
  · apply mul_right_cancel₀ hd
    linear_combination (wall.end.x - wall.begin.x) * ht - ray.dir.x * hu +
      (wall.begin.x - ray.pos.x) * hdef
  · apply mul_right_cancel₀ hd
    linear_combination (wall.end.y - wall.begin.y) * ht - ray.dir.y * hu +
      (wall.begin.y - ray.pos.y) * hdef

/-- C10: whenever `ray2d_cast` returns true, the point `P` it writes is
`begin + t*(end - begin)` with `0 < t < 1` and also `origin + u*dir` with
`u > 0`, for the `t` and `u` the code computes; and the two endpoints of the
segment are not both behind the ray origin (it is not the case that both
`(begin - origin) . dir < 0` and `(end - origin) . dir < 0`). -/
theorem ray2d_cast_sound (ray : Ray2D K) (wall : Boundary K) (i0 : Vector2 K)
    (h : (ray2d_cast ray wall i0).1 = true) :
    (ray2d_cast ray wall i0).2.x = ray.pos.x + ray2d_cast_u ray wall * ray.dir.x ∧
    (ray2d_cast ray wall i0).2.y = ray.pos.y + ray2d_cast_u ray wall * ray.dir.y ∧
    0 < ray2d_cast_u ray wall ∧
    (ray2d_cast ray wall i0).2.x =
      wall.begin.x + ray2d_cast_t ray wall * (wall.end.x - wall.begin.x) ∧
    (ray2d_cast ray wall i0).2.y =
      wall.begin.y + ray2d_cast_t ray wall * (wall.end.y - wall.begin.y) ∧
    0 < ray2d_cast_t ray wall ∧ ray2d_cast_t ray wall < 1 ∧
    ¬ ((wall.begin.x - ray.pos.x) * ray.dir.x + (wall.begin.y - ray.pos.y) * ray.dir.y < 0 ∧
       (wall.end.x - ray.pos.x) * ray.dir.x + (wall.end.y - ray.pos.y) * ray.dir.y < 0) := by
  obtain ⟨hd, ht0, ht1, hu⟩ := (ray2d_cast_true_iff ray wall i0).1 h
  have hp := ray2d_cast_point ray wall i0 h
  obtain ⟨hx, hy⟩ := ray2d_cast_on_ray ray wall hd
  rw [hp]
  refine ⟨hx, hy, hu, rfl, rfl, ht0, ht1, ?_⟩
  rintro ⟨hb, he⟩
  set t := ray2d_cast_t ray wall
  set u := ray2d_cast_u ray wall
  -- the dot product of `P - origin` with `dir`, computed along the segment
  have hdot : u * (ray.dir.x * ray.dir.x + ray.dir.y * ray.dir.y) =
      (1 - t) * ((wall.begin.x - ray.pos.x) * ray.dir.x + (wall.begin.y - ray.pos.y) * ray.dir.y)
        + t * ((wall.end.x - ray.pos.x) * ray.dir.x + (wall.end.y - ray.pos.y) * ray.dir.y) := by
    have e1 : u * ray.dir.x = wall.begin.x + t * (wall.end.x - wall.begin.x) - ray.pos.x := by
      rw [hx]; ring
    have e2 : u * ray.dir.y = wall.begin.y + t * (wall.end.y - wall.begin.y) - ray.pos.y := by
      rw [hy]; ring
    calc u * (ray.dir.x * ray.dir.x + ray.dir.y * ray.dir.y)
        = (u * ray.dir.x) * ray.dir.x + (u * ray.dir.y) * ray.dir.y := by ring
      _ = _ := by rw [e1, e2]; ring
  have hneg : (1 - t) * ((wall.begin.x - ray.pos.x) * ray.dir.x
        + (wall.begin.y - ray.pos.y) * ray.dir.y)
        + t * ((wall.end.x - ray.pos.x) * ray.dir.x + (wall.end.y - ray.pos.y) * ray.dir.y) < 0 := by
    have h1 : (1 - t) * ((wall.begin.x - ray.pos.x) * ray.dir.x
        + (wall.begin.y - ray.pos.y) * ray.dir.y) < 0 :=
      mul_neg_of_pos_of_neg (by linarith) hb
    have h2 : t * ((wall.end.x - ray.pos.x) * ray.dir.x
        + (wall.end.y - ray.pos.y) * ray.dir.y) < 0 :=
      mul_neg_of_pos_of_neg ht0 he
    linarith
  have hsq : 0 ≤ ray.dir.x * ray.dir.x + ray.dir.y * ray.dir.y :=
    add_nonneg (mul_self_nonneg _) (mul_self_nonneg _)
  have hpos : 0 ≤ u * (ray.dir.x * ray.dir.x + ray.dir.y * ray.dir.y) :=
    mul_nonneg hu.le hsq
  linarith

/-- A ray from `(0,0)` along `(1,0)` and the wall from `(1,-1)` to `(1,1)`, which it
crosses: an instance of `ray2d_cast_sound`. -/
theorem ray2d_cast_sound_witness :
    (ray2d_cast (⟨⟨0, 0⟩, ⟨1, 0⟩⟩ : Ray2D ℚ) (boundary_init 1 (-1) 1 1) ⟨0, 0⟩).1 = true ∧
    ¬ (((boundary_init (1:ℚ) (-1) 1 1).begin.x - 0) * 1 +
          ((boundary_init (1:ℚ) (-1) 1 1).begin.y - 0) * 0 < 0 ∧
       ((boundary_init (1:ℚ) (-1) 1 1).end.x - 0) * 1 +
          ((boundary_init (1:ℚ) (-1) 1 1).end.y - 0) * 0 < 0) :=
  ⟨by norm_num [ray2d_cast, ray2d_cast_denom, ray2d_cast_t, ray2d_cast_u, boundary_init],
   (ray2d_cast_sound (⟨⟨0, 0⟩, ⟨1, 0⟩⟩ : Ray2D ℚ) (boundary_init 1 (-1) 1 1) ⟨0, 0⟩
      (by norm_num [ray2d_cast, ray2d_cast_denom, ray2d_cast_t, ray2d_cast_u,
        boundary_init])).2.2.2.2.2.2.2⟩

end Cast

/-! ## Theorems: the trail -/

section Trail

variable {K : Type}

theorem trail2d_slot_congr (trail : Trail2D K) (i j : Int) (h : i % 200 = j % 200) :
    trail2d_slot trail i = trail2d_slot trail j := by
  unfold trail2d_slot
  congr 2
  rw [h]

theorem trail2d_read_eq (trail : Trail2D K) (i : Int) (h0 : 0 ≤ i) (h1 : i < 200) :
    trail2d_read trail i = some (trail2d_slot trail i) := by
  unfold trail2d_read trail2d_slot
  have h : 0 ≤ i ∧ i < (TRAIL2D_MAX : Int) := by unfold TRAIL2D_MAX; omega
  rw [dif_pos h]
  congr 3
  omega

theorem trail2d_retained_loop_eq (trail : Trail2D K) (ht0 : 0 ≤ trail.tail)
    (ht1 : trail.tail < 200) :
    ∀ (m fuel : Nat) (h : Int), 0 ≤ h → h < 200 → (trail.tail - h) % 200 = (m : Int) →
      m < fuel →
      trail2d_retained_loop trail fuel h =
        some ((List.range m).map fun (k : Nat) => trail2d_slot trail (h + (k : Int))) := by
  intro m
  induction m with
  | zero =>
    intro fuel h h0 h1 hm hf
    obtain ⟨f, rfl⟩ : ∃ f, fuel = f + 1 := ⟨fuel - 1, by omega⟩
    have : h = trail.tail := by omega
    simp [trail2d_retained_loop, this]
  | succ m ih =>
    intro fuel h h0 h1 hm hf
    obtain ⟨f, rfl⟩ : ∃ f, fuel = f + 1 := ⟨fuel - 1, by omega⟩
    have hne : h ≠ trail.tail := by omega
    have hnext : to_ulong (h + 1) % (TRAIL2D_MAX : Int) = (h + 1) % 200 := by
      unfold to_ulong TRAIL2D_MAX; omega
    have hrec := ih f ((h + 1) % 200) (by omega) (by omega) (by omega) (by omega)
    rw [trail2d_retained_loop, if_pos hne, trail2d_read_eq trail h h0 h1]
    simp only [hnext, hrec, Option.map_some']
    rw [List.range_succ_eq_map, List.map_cons, List.map_map]
    congr 2
    · apply trail2d_slot_congr; simp
    · apply List.map_congr_left
      intro k _
      apply trail2d_slot_congr
      simp only [Function.comp_apply, Nat.succ_eq_add_one, Nat.cast_add, Nat.cast_one]
      omega

theorem trail2d_retained_eq (trail : Trail2D K) (h : trail2d_in_range trail) (fuel : Nat)
    (hf : TRAIL2D_MAX ≤ fuel) :
    trail2d_retained fuel trail = some (trail2d_window trail) := by
  unfold trail2d_in_range TRAIL2D_MAX at h
  unfold TRAIL2D_MAX at hf
  unfold trail2d_retained trail2d_window trail2d_count
  apply trail2d_retained_loop_eq trail h.2.2.1 h.2.2.2 _ fuel trail.head h.1 h.2.1
  · unfold TRAIL2D_MAX; omega
  · unfold TRAIL2D_MAX; omega

theorem trail2d_slot_update (trail trail' : Trail2D K) (p : Vector2 K)
    (n : Fin TRAIL2D_MAX) (hn : ((n : Nat) : Int) = trail.tail)
    (hp : trail'.points = Function.update trail.points n p) (i : Int) :
    trail2d_slot trail' i = if i % 200 = trail.tail then p else trail2d_slot trail i := by
  unfold trail2d_slot
  rw [hp, Function.update_apply]
  have hlt : (n : Nat) < 200 := n.2
  by_cases hi : i % 200 = trail.tail
  · rw [if_pos hi, if_pos]
    apply Fin.ext
    simp only
    omega
  · rw [if_neg hi, if_neg]
    intro hfin
    apply hi
    have := congrArg Fin.val hfin
    simp only at this
    omega

theorem trail2d_add_eq (trail : Trail2D K) (p : Vector2 K) (h : trail2d_in_range trail) :
    ∃ trail', trail2d_add trail p = some trail' ∧ trail2d_in_range trail' ∧
      trail'.tail = (trail.tail + 1) % 200 ∧
      trail'.head = (if trail2d_count trail = 199 then (trail.head + 1) % 200 else trail.head) ∧
      ∀ i : Int, trail2d_slot trail' i =
        if i % 200 = trail.tail then p else trail2d_slot trail i := by
  unfold trail2d_in_range TRAIL2D_MAX at h
  obtain ⟨hh0, hh1, ht0, ht1⟩ := h
  have hg : 0 ≤ trail.tail ∧ trail.tail < (TRAIL2D_MAX : Int) := by
    unfold TRAIL2D_MAX; omega
  have hn : ((trail.tail.toNat : Nat) : Int) = trail.tail := by omega
  have hlt : trail.tail.toNat < TRAIL2D_MAX := by unfold TRAIL2D_MAX; omega
  unfold trail2d_add
  rw [dif_pos hg]
  simp only
  by_cases hfull : to_ulong (trail.tail + 1) % (TRAIL2D_MAX : Int) = trail.head
  · rw [if_pos hfull]
    refine ⟨_, rfl, ?_, ?_, ?_, trail2d_slot_update trail _ p ⟨trail.tail.toNat, hlt⟩ hn rfl⟩
    · unfold trail2d_in_range to_ulong TRAIL2D_MAX; simp only; omega
    · unfold to_ulong TRAIL2D_MAX; simp only; omega
    · have hc : trail2d_count trail = 199 := by
        unfold to_ulong TRAIL2D_MAX at hfull
        unfold trail2d_count TRAIL2D_MAX
        omega
      rw [if_pos hc]
      unfold to_ulong TRAIL2D_MAX; simp only; omega
  · rw [if_neg hfull]
    refine ⟨_, rfl, ?_, ?_, ?_, trail2d_slot_update trail _ p ⟨trail.tail.toNat, hlt⟩ hn rfl⟩
    · unfold trail2d_in_range to_ulong TRAIL2D_MAX; simp only; omega
    · unfold to_ulong TRAIL2D_MAX; simp only; omega
    · have hc : ¬ trail2d_count trail = 199 := by
        unfold to_ulong TRAIL2D_MAX at hfull
        unfold trail2d_count TRAIL2D_MAX
        omega
      rw [if_neg hc]

theorem trail2d_window_length (trail : Trail2D K) :
    ((trail2d_window trail).length : Int) = trail2d_count trail := by
  unfold trail2d_window
  rw [List.length_map, List.length_range]
  unfold trail2d_count TRAIL2D_MAX
  omega

theorem trail2d_count_bounds (trail : Trail2D K) :
    0 ≤ trail2d_count trail ∧ trail2d_count trail ≤ 199 := by
  unfold trail2d_count TRAIL2D_MAX
  omega

/-- One `trail2d_add` on a trail with valid indices: the new point is appended to the
retained window, and the oldest point leaves it exactly when the window already
held `TRAIL2D_MAX - 1` points. -/
theorem trail2d_add_window (trail : Trail2D K) (p : Vector2 K) (h : trail2d_in_range trail) :
    ∃ trail', trail2d_add trail p = some trail' ∧ trail2d_in_range trail' ∧
      trail'.tail = (trail.tail + 1) % 200 ∧
      trail'.head = (if trail2d_count trail = 199 then (trail.head + 1) % 200 else trail.head) ∧
      trail2d_window trail' =
        (if trail2d_count trail = 199 then (trail2d_window trail).tail
          else trail2d_window trail) ++ [p] := by
  obtain ⟨trail', hadd, hin, htail, hhead, hslot⟩ := trail2d_add_eq trail p h
  refine ⟨trail', hadd, hin, htail, hhead, ?_⟩
  unfold trail2d_in_range TRAIL2D_MAX at h
  obtain ⟨hh0, hh1, ht0, ht1⟩ := h
  have hcb := trail2d_count_bounds trail
  by_cases hc : trail2d_count trail = 199
  · rw [if_pos hc] at hhead ⊢
    have hc' : trail2d_count trail' = 199 := by
      unfold trail2d_count TRAIL2D_MAX at hc ⊢
      rw [htail, hhead]; omega
    unfold trail2d_window
    rw [hc', hc]
    have e199 : (199 : Int).toNat = 198 + 1 := by decide
    rw [e199]
    conv_lhs => rw [List.range_succ, List.map_append]
    conv_rhs => rw [List.range_succ_eq_map, List.map_cons, List.tail_cons, List.map_map]
    congr 1
    · apply List.map_congr_left
      intro k hk
      rw [List.mem_range] at hk
      simp only [Function.comp_apply, Nat.succ_eq_add_one, Nat.cast_add, Nat.cast_one]
      rw [hslot, if_neg]
      · apply trail2d_slot_congr
        rw [hhead]; omega
      · unfold trail2d_count TRAIL2D_MAX at hc
        rw [hhead]; omega
    · simp only [List.map_cons, List.map_nil]
      rw [hslot, if_pos]
      unfold trail2d_count TRAIL2D_MAX at hc
      rw [hhead]; simp only [Nat.cast_ofNat]; omega
  · rw [if_neg hc] at hhead ⊢
    have hc' : trail2d_count trail' = trail2d_count trail + 1 := by
      unfold trail2d_count TRAIL2D_MAX at hc hcb ⊢
      rw [htail, hhead]; omega
    unfold trail2d_window
    have en : (trail2d_count trail').toNat = (trail2d_count trail).toNat + 1 := by omega
    rw [en, List.range_succ, List.map_append]
    congr 1
    · apply List.map_congr_left
      intro k hk
      rw [List.mem_range] at hk
      rw [hslot, if_neg, hhead]
      unfold trail2d_count TRAIL2D_MAX at hc hcb hk
      rw [hhead]; omega
    · simp only [List.map_cons, List.map_nil]
      rw [hslot, if_pos]
      unfold trail2d_count TRAIL2D_MAX at hc hcb ⊢
      rw [hhead]; omega

theorem keep_last_of_short {α : Type} (l : List α) (h : l.length ≤ 199) : keep_last l = l := by
  unfold keep_last TRAIL2D_MAX
  have : l.length - (200 - 1) = 0 := by omega
  rw [this, List.drop_zero]

theorem keep_last_append {α : Type} (a b : List α) :
    keep_last (keep_last a ++ b) = keep_last (a ++ b) := by
  by_cases h : a.length ≤ 199
  · rw [keep_last_of_short a h]
  · unfold keep_last TRAIL2D_MAX
    have hd : List.drop (a.length - (200 - 1)) (a ++ b) =
        List.drop (a.length - (200 - 1)) a ++ b :=
      List.drop_append_of_le_length (by omega)
    have e1 : (List.drop (a.length - (200 - 1)) a ++ b).length - (200 - 1) = b.length := by
      rw [List.length_append, List.length_drop]; omega
    have e2 : (a ++ b).length - (200 - 1) = b.length + (a.length - (200 - 1)) := by
      rw [List.length_append]; omega
    rw [e1, e2, ← hd, List.drop_drop, Nat.add_comm]

theorem trail2d_window_step {α : Type} (w : List α) (p : α) (c : Int)
    (hlen : (w.length : Int) = c) (hc : c ≤ 199) :
    (if c = 199 then w.tail else w) ++ [p] = keep_last (w ++ [p]) := by
  by_cases h : c = 199
  · rw [if_pos h]
    unfold keep_last TRAIL2D_MAX
    have e : (w ++ [p]).length - (200 - 1) = 1 := by
      rw [List.length_append, List.length_singleton]; omega
    rw [e, List.drop_one, List.tail_append_of_ne_nil]
    intro hnil
    rw [hnil] at hlen
    simp at hlen
    omega
  · rw [if_neg h, keep_last_of_short]
    rw [List.length_append, List.length_singleton]; omega

theorem trail2d_add_seq_window (ps : List (Vector2 K)) :
    ∀ trail : Trail2D K, trail2d_in_range trail →
      ∃ trail', trail2d_add_seq trail ps = some trail' ∧ trail2d_in_range trail' ∧
        trail2d_window trail' = keep_last (trail2d_window trail ++ ps) := by
  induction ps with
  | nil =>
    intro trail h
    refine ⟨trail, rfl, h, ?_⟩
    rw [List.append_nil, keep_last_of_short]
    have h1 := trail2d_window_length trail
    have h2 := trail2d_count_bounds trail
    omega
  | cons p ps ih =>
    intro trail h
    obtain ⟨t1, hadd, hin1, _, _, hw1⟩ := trail2d_add_window trail p h
    obtain ⟨t2, hseq, hin2, hw2⟩ := ih t1 hin1
    refine ⟨t2, ?_, hin2, ?_⟩
    · rw [trail2d_add_seq, hadd]; exact hseq
    · rw [hw2, hw1, trail2d_window_step _ p _ (trail2d_window_length trail)
        (trail2d_count_bounds trail).2, keep_last_append, List.append_assoc]
      rfl

theorem trail2d_add_seq_short (ps : List (Vector2 K)) :
    ∀ trail : Trail2D K, trail2d_in_range trail →
      trail2d_count trail + (ps.length : Int) ≤ 199 →
      ∃ trail', trail2d_add_seq trail ps = some trail' ∧ trail'.head = trail.head ∧
        trail2d_count trail' = trail2d_count trail + (ps.length : Int) := by
  induction ps with
  | nil =>
    intro trail _ _
    exact ⟨trail, rfl, rfl, by simp⟩
  | cons p ps ih =>
    intro trail h hle
    rw [List.length_cons] at hle
    push_cast at hle
    have hcb := trail2d_count_bounds trail
    obtain ⟨t1, hadd, hin1, _, hhead, hw1⟩ := trail2d_add_window trail p h
    have hc : ¬ trail2d_count trail = 199 := by
      have : (0 : Int) ≤ (ps.length : Int) := Int.natCast_nonneg _
      omega
    rw [if_neg hc] at hhead hw1
    have hc1 : trail2d_count t1 = trail2d_count trail + 1 := by
      rw [← trail2d_window_length t1, hw1, List.length_append, List.length_singleton]
      push_cast
      rw [trail2d_window_length trail]
    obtain ⟨t2, hseq, hhead2, hc2⟩ := ih t1 hin1 (by omega)
    refine ⟨t2, ?_, ?_, ?_⟩
    · rw [trail2d_add_seq, hadd]; exact hseq
    · rw [hhead2, hhead]
    · rw [hc2, hc1, List.length_cons]; push_cast; omega

theorem trail2d_retained_loop_cons (trail : Trail2D K) (fuel : Nat) (h : Int)
    (h0 : 0 ≤ h) (h1 : h < 200) (hne : h ≠ trail.tail) (r : List (Vector2 K))
    (hr : trail2d_retained_loop trail fuel h = some r) :
    ∃ f r', fuel = f + 1 ∧ r = trail2d_slot trail h :: r' ∧
      trail2d_retained_loop trail f ((h + 1) % 200) = some r' := by
  cases fuel with
  | zero => simp [trail2d_retained_loop] at hr
  | succ f =>
    have hnext : to_ulong (h + 1) % (TRAIL2D_MAX : Int) = (h + 1) % 200 := by
      unfold to_ulong TRAIL2D_MAX; omega
    rw [trail2d_retained_loop, if_pos hne, trail2d_read_eq trail h h0 h1] at hr
    simp only [hnext] at hr
    cases hrec : trail2d_retained_loop trail f ((h + 1) % 200) with
    | none => rw [hrec] at hr; simp at hr
    | some r' =>
      rw [hrec] at hr
      simp only [Option.map_some', Option.some.injEq] at hr
      exact ⟨f, r', rfl, hr.symm, hrec⟩

/-- The lines `trail2d_draw` draws join the consecutive points of the retained
sequence. -/
theorem trail2d_draw_loop_eq (trail : Trail2D K) :
    ∀ (fuel : Nat) (h : Int) (r : List (Vector2 K)), 0 ≤ h → h < 200 →
      trail2d_retained_loop trail fuel h = some r →
      trail2d_draw_loop trail fuel h = some (r.zip r.tail) := by
  intro fuel
  induction fuel with
  | zero =>
    intro h r _ _ hr
    simp [trail2d_retained_loop] at hr
  | succ f ih =>
    intro h r h0 h1 hr
    by_cases hne : h ≠ trail.tail
    · obtain ⟨f', r', hf, hr', hrec⟩ := trail2d_retained_loop_cons trail (f + 1) h h0 h1 hne r hr
      have hf' : f' = f := by omega
      subst hf'
      subst hr'
      have hnext : to_ulong (h + 1) % (TRAIL2D_MAX : Int) = (h + 1) % 200 := by
        unfold to_ulong TRAIL2D_MAX; omega
      have hih := ih ((h + 1) % 200) r' (by omega) (by omega) hrec
      rw [trail2d_draw_loop, if_pos hne]
      simp only [hnext]
      by_cases hne2 : (h + 1) % 200 ≠ trail.tail
      · obtain ⟨f2, r2, _, hr2, _⟩ := trail2d_retained_loop_cons trail f' ((h + 1) % 200)
          (by omega) (by omega) hne2 r' hrec
        rw [if_pos hne2, trail2d_read_eq trail h h0 h1,
          trail2d_read_eq trail ((h + 1) % 200) (by omega) (by omega)]
        simp only [hih, Option.map_some']
        rw [hr2]
        simp
      · rw [if_neg hne2, hih]
        have hnil : r' = [] := by
          cases f' with
          | zero => simp [trail2d_retained_loop] at hrec
          | succ f2 =>
            rw [trail2d_retained_loop, if_neg hne2] at hrec
            exact (Option.some.inj hrec).symm
        rw [hnil]
        simp
    · rw [trail2d_retained_loop, if_neg hne] at hr
      rw [trail2d_draw_loop, if_neg hne, ← Option.some.inj hr]
      simp

theorem trail2d_init_in_range [LinearOrderedField K] :
    trail2d_in_range (trail2d_init : Trail2D K) := by
  unfold trail2d_in_range trail2d_init TRAIL2D_MAX
  simp

theorem trail2d_init_window [LinearOrderedField K] :
    trail2d_window (trail2d_init : Trail2D K) = [] := by
  unfold trail2d_window trail2d_count trail2d_init TRAIL2D_MAX
  simp

theorem trail2d_draw_eq (trail : Trail2D K) (h : trail2d_in_range trail) (fuel : Nat)
    (hf : TRAIL2D_MAX ≤ fuel) :
    trail2d_draw fuel trail = some ((trail2d_window trail).zip (trail2d_window trail).tail) := by
  have hr := trail2d_retained_eq trail h fuel hf
  unfold trail2d_in_range TRAIL2D_MAX at h
  exact trail2d_draw_loop_eq trail fuel trail.head _ h.1 h.2.1 hr

/-- Any sequence of pushes onto the initial trail succeeds, leaves valid indices,
and retains the last `TRAIL2D_MAX - 1` pushed points in push order. -/
theorem trail2d_add_seq_retained [LinearOrderedField K] (ps : List (Vector2 K)) :
    ∃ trail, trail2d_add_seq trail2d_init ps = some trail ∧ trail2d_in_range trail ∧
      trail2d_window trail = keep_last ps ∧
      ∀ fuel, TRAIL2D_MAX ≤ fuel → trail2d_retained fuel trail = some (keep_last ps) := by
  obtain ⟨trail, hseq, hin, hw⟩ := trail2d_add_seq_window ps trail2d_init trail2d_init_in_range
  rw [trail2d_init_window, List.nil_append] at hw
  refine ⟨trail, hseq, hin, hw, ?_⟩
  intro fuel hf
  rw [trail2d_retained_eq trail hin fuel hf, hw]

/-- C3: for `k < TRAIL2D_MAX` pushes onto the initial trail nothing is evicted:
every push succeeds, `head` stays 0, the retained count `(tail - head) mod
TRAIL2D_MAX` is `k`, the retained sequence read from `head` to `tail` is exactly
the pushed sequence, and `trail2d_draw` joins its consecutive points. -/
theorem trail2d_add_below_capacity [LinearOrderedField K] (k : Nat) (ps : List (Vector2 K))
    (hk : k < TRAIL2D_MAX) (hlen : ps.length = k) :
    ∃ trail, trail2d_add_seq trail2d_init ps = some trail ∧ trail.head = 0 ∧
      trail2d_count trail = (k : Int) ∧
      ∀ fuel, TRAIL2D_MAX ≤ fuel →
        trail2d_retained fuel trail = some ps ∧
        trail2d_draw fuel trail = some (ps.zip ps.tail) := by
  unfold TRAIL2D_MAX at hk
  obtain ⟨trail, hseq, hin, hw, hret⟩ := trail2d_add_seq_retained ps
  have hc0 : trail2d_count (trail2d_init : Trail2D K) = 0 := by
    unfold trail2d_count trail2d_init TRAIL2D_MAX; simp
  obtain ⟨trail', hseq', hhead, hcount⟩ :=
    trail2d_add_seq_short ps trail2d_init trail2d_init_in_range (by rw [hc0]; omega)
  rw [hseq] at hseq'
  have ht : trail = trail' := Option.some.inj hseq'
  subst ht
  have hk' : keep_last ps = ps := keep_last_of_short ps (by omega)
  refine ⟨trail, hseq, ?_, ?_, ?_⟩
  · rw [hhead]; rfl
  · rw [hcount, hc0, hlen]; simp
  · intro fuel hf
    refine ⟨?_, ?_⟩
    · rw [hret fuel hf, hk']
    · rw [trail2d_draw_eq trail hin fuel hf, hw, hk']

/-- Three points pushed onto the initial trail: an instance of
`trail2d_add_below_capacity`. -/
theorem trail2d_add_below_capacity_witness :
    3 < TRAIL2D_MAX ∧ ([⟨1, 2⟩, ⟨3, 4⟩, ⟨5, 6⟩] : List (Vector2 ℚ)).length = 3 ∧
    ∃ trail, trail2d_add_seq trail2d_init ([⟨1, 2⟩, ⟨3, 4⟩, ⟨5, 6⟩] : List (Vector2 ℚ))
        = some trail ∧ trail.head = 0 ∧
      trail2d_count trail = ((3 : Nat) : Int) ∧
      ∀ fuel, TRAIL2D_MAX ≤ fuel →
        trail2d_retained fuel trail = some [⟨1, 2⟩, ⟨3, 4⟩, ⟨5, 6⟩] ∧
        trail2d_draw fuel trail =
          some (([⟨1, 2⟩, ⟨3, 4⟩, ⟨5, 6⟩] : List (Vector2 ℚ)).zip
            ([⟨1, 2⟩, ⟨3, 4⟩, ⟨5, 6⟩] : List (Vector2 ℚ)).tail) :=
  ⟨by decide, rfl,
    trail2d_add_below_capacity 3 ([⟨1, 2⟩, ⟨3, 4⟩, ⟨5, 6⟩] : List (Vector2 ℚ)) (by decide) rfl⟩

/-- C2 (amended): after `TRAIL2D_MAX + 1` pushes onto the initial trail the retained
sequence has exactly `TRAIL2D_MAX - 1` points: the first two pushed points have
left it and the last `TRAIL2D_MAX - 1` pushed points are present in push order. -/
theorem trail2d_add_over_capacity [LinearOrderedField K] (ps : List (Vector2 K))
    (hlen : ps.length = TRAIL2D_MAX + 1) :
    ∃ trail, trail2d_add_seq trail2d_init ps = some trail ∧
      trail2d_count trail = ((TRAIL2D_MAX - 1 : Nat) : Int) ∧
      (ps.drop 2).length = TRAIL2D_MAX - 1 ∧
      ∀ fuel, TRAIL2D_MAX ≤ fuel → trail2d_retained fuel trail = some (ps.drop 2) := by
  obtain ⟨trail, hseq, hin, hw, hret⟩ := trail2d_add_seq_retained ps
  have hk : keep_last ps = ps.drop 2 := by
    unfold keep_last
    rw [hlen]
    rfl
  have hl : (ps.drop 2).length = TRAIL2D_MAX - 1 := by
    rw [List.length_drop, hlen]
    rfl
  refine ⟨trail, hseq, ?_, hl, ?_⟩
  · rw [← trail2d_window_length, hw, hk, hl]
  · intro fuel hf
    rw [hret fuel hf, hk]

/-- The points `(0,0), (1,0), ..., (200,0)` pushed onto the initial trail: an
instance of `trail2d_add_over_capacity`. -/
theorem trail2d_add_over_capacity_witness :
    ((List.range 201).map fun (i : Nat) => (⟨(i : ℚ), 0⟩ : Vector2 ℚ)).length = TRAIL2D_MAX + 1 ∧
    ∃ trail, trail2d_add_seq trail2d_init
        ((List.range 201).map fun (i : Nat) => (⟨(i : ℚ), 0⟩ : Vector2 ℚ)) = some trail ∧
      trail2d_count trail = ((TRAIL2D_MAX - 1 : Nat) : Int) ∧
      (((List.range 201).map fun (i : Nat) => (⟨(i : ℚ), 0⟩ : Vector2 ℚ)).drop 2).length
        = TRAIL2D_MAX - 1 ∧
      ∀ fuel, TRAIL2D_MAX ≤ fuel → trail2d_retained fuel trail =
        some (((List.range 201).map fun (i : Nat) => (⟨(i : ℚ), 0⟩ : Vector2 ℚ)).drop 2) :=
  ⟨by rw [List.length_map, List.length_range]; rfl,
    trail2d_add_over_capacity ((List.range 201).map fun (i : Nat) => (⟨(i : ℚ), 0⟩ : Vector2 ℚ))
      (by rw [List.length_map, List.length_range]; rfl)⟩

/-- C2 as stated fails: after the `TRAIL2D_MAX + 1 = 201` points `(0,0), ..., (200,0)`
are pushed onto the initial trail, the retained sequence does not have
`TRAIL2D_MAX` points. -/
theorem trail2d_add_over_capacity_counterexample :
    ¬ ∃ (trail : Trail2D ℚ) (r : List (Vector2 ℚ)),
      trail2d_add_seq trail2d_init
        ((List.range 201).map fun (i : Nat) => (⟨(i : ℚ), 0⟩ : Vector2 ℚ)) = some trail ∧
      trail2d_retained 200 trail = some r ∧ r.length = TRAIL2D_MAX := by
  rintro ⟨trail, r, hseq, hret, hlen⟩
  obtain ⟨trail', hseq', _, _, hret'⟩ :=
    trail2d_add_seq_retained ((List.range 201).map fun (i : Nat) => (⟨(i : ℚ), 0⟩ : Vector2 ℚ))
  rw [hseq] at hseq'
  have ht : trail = trail' := Option.some.inj hseq'
  subst ht
  rw [hret' 200 (by unfold TRAIL2D_MAX; omega)] at hret
  have hr := Option.some.inj hret
  rw [← hr] at hlen
  unfold keep_last TRAIL2D_MAX at hlen
  rw [List.length_drop, List.length_map, List.length_range] at hlen
  omega

/-- C9: in every state reached from the initial trail by a sequence of
`trail2d_add` calls (each of which succeeds), `head` and `tail` lie in
`0 .. TRAIL2D_MAX-1`; the retained count `(tail - head) mod TRAIL2D_MAX` is at
most `TRAIL2D_MAX` (indeed at most `TRAIL2D_MAX - 1`, the level at which the
ring is full); `trail2d_draw` ends with every read in range; and a further
`trail2d_add` writes in range and appends the new point, dropping the oldest
retained point in the same step exactly when the ring was full. -/
theorem trail2d_reachable_safe [LinearOrderedField K] (ps : List (Vector2 K)) :
    ∃ trail, trail2d_add_seq trail2d_init ps = some trail ∧
      (0 ≤ trail.head ∧ trail.head < (TRAIL2D_MAX : Int)) ∧
      (0 ≤ trail.tail ∧ trail.tail < (TRAIL2D_MAX : Int)) ∧
      (0 ≤ trail2d_count trail ∧ trail2d_count trail ≤ (TRAIL2D_MAX : Int) - 1 ∧
        trail2d_count trail ≤ (TRAIL2D_MAX : Int)) ∧
      (∀ fuel, TRAIL2D_MAX ≤ fuel →
        ∃ r, trail2d_retained fuel trail = some r ∧ (r.length : Int) = trail2d_count trail ∧
          trail2d_draw fuel trail = some (r.zip r.tail)) ∧
      (∀ p, ∃ trail', trail2d_add trail p = some trail' ∧
        ∀ fuel, TRAIL2D_MAX ≤ fuel →
          ∃ r, trail2d_retained fuel trail = some r ∧
            trail2d_retained fuel trail' =
              some ((if r.length = TRAIL2D_MAX - 1 then r.tail else r) ++ [p])) := by
  obtain ⟨trail, hseq, hin, _, _⟩ := trail2d_add_seq_retained ps
  have hcb := trail2d_count_bounds trail
  have hin' := hin
  unfold trail2d_in_range at hin'
  refine ⟨trail, hseq, ⟨hin'.1, hin'.2.1⟩, ⟨hin'.2.2.1, hin'.2.2.2⟩, ?_, ?_, ?_⟩
  · unfold TRAIL2D_MAX; simp only [Nat.cast_ofNat]; omega
  · intro fuel hf
    exact ⟨trail2d_window trail, trail2d_retained_eq trail hin fuel hf,
      trail2d_window_length trail, trail2d_draw_eq trail hin fuel hf⟩
  · intro p
    obtain ⟨trail', hadd, hin1, _, _, hw⟩ := trail2d_add_window trail p hin
    refine ⟨trail', hadd, ?_⟩
    intro fuel hf
    refine ⟨trail2d_window trail, trail2d_retained_eq trail hin fuel hf, ?_⟩
    rw [trail2d_retained_eq trail' hin1 fuel hf, hw]
    have hl := trail2d_window_length trail
    by_cases hc : trail2d_count trail = 199
    · rw [if_pos hc, if_pos (by unfold TRAIL2D_MAX; omega)]
    · rw [if_neg hc, if_neg (by unfold TRAIL2D_MAX; omega)]

end Trail

/-! ## Theorems: the particle -/

section ParticleFan

variable {K : Type} [LinearOrderedField K]

theorem foldl_update_apply {n : Nat} {β : Type} (g : Fin n → β) (l : List (Fin n)) :
    ∀ (f : Fin n → β) (j : Fin n),
      (l.foldl (fun f i => Function.update f i (g i)) f) j = if j ∈ l then g j else f j := by
  induction l with
  | nil => intro f j; simp
  | cons a l ih =>
    intro f j
    rw [List.foldl_cons, ih]
    by_cases hj : j ∈ l
    · simp [hj]
    · by_cases hja : j = a
      · subst hja; simp [hj]
      · simp [hj, hja]

theorem particle_init_rays (env : MathEnv K) (x y : K) (i : Fin RAYS_COUNT) :
    (particle_init env x y).rays i =
      ray2d_init env ⟨x, y⟩ ((360 / (RAYS_COUNT : K)) * ((i : Nat) : K)) := by
  unfold particle_init
  simp only
  rw [foldl_update_apply (fun i : Fin RAYS_COUNT =>
    ray2d_init env ⟨x, y⟩ ((360 / (RAYS_COUNT : K)) * ((i : Nat) : K)))]
  rw [if_pos (List.mem_finRange i)]

theorem particle_update_pos_rays (env : MathEnv K) (particle : Particle K) (x y : K)
    (i : Fin RAYS_COUNT) :
    (particle_update_pos env particle x y).rays i =
      ray2d_init env ⟨x, y⟩ ((360 / (RAYS_COUNT : K)) * ((i : Nat) : K)) := by
  unfold particle_update_pos
  simp only
  rw [foldl_update_apply (fun i : Fin RAYS_COUNT =>
    ray2d_init env ⟨x, y⟩ ((360 / (RAYS_COUNT : K)) * ((i : Nat) : K)))]
  rw [if_pos (List.mem_finRange i)]

/-- C8: after `particle_update_pos(p, x, y)`, whatever `p` was, the position is
`(x,y)`; every ray `i` has origin `(x,y)` and the direction `ray2d_init` gives for
the angle `(360/RAYS_COUNT)*i`; and the resulting particle equals
`particle_init(x, y)`. -/
theorem particle_update_pos_rebuilds (env : MathEnv K) (particle : Particle K) (x y : K) :
    (particle_update_pos env particle x y).pos = ⟨x, y⟩ ∧
    (∀ i : Fin RAYS_COUNT,
      ((particle_update_pos env particle x y).rays i).pos = ⟨x, y⟩ ∧
      ((particle_update_pos env particle x y).rays i).dir =
        (ray2d_init env ⟨x, y⟩ ((360 / (RAYS_COUNT : K)) * ((i : Nat) : K))).dir) ∧
    particle_update_pos env particle x y = particle_init env x y := by
  refine ⟨rfl, ?_, ?_⟩
  · intro i
    rw [particle_update_pos_rays]
    exact ⟨rfl, rfl⟩
  · have hrays : (particle_update_pos env particle x y).rays = (particle_init env x y).rays := by
      funext i
      rw [particle_update_pos_rays, particle_init_rays]
    have hpos : (particle_update_pos env particle x y).pos = (particle_init env x y).pos := rfl
    cases hu : particle_update_pos env particle x y with
    | mk p1 r1 =>
      cases hi : particle_init env x y with
      | mk p2 r2 =>
        rw [hu, hi] at hrays hpos
        simp only at hrays hpos
        rw [hrays, hpos]

end ParticleFan

/-! ## Theorems: the scan -/

section Scan

variable {K : Type} [LinearOrderedField K]

end Scan

/-! ## Theorems: the scan at concrete inputs, over the reals -/

section Concrete

end Concrete

/-! ## Theorems: the enclosing box -/

section Box

variable {K : Type} [LinearOrderedField K]

/-- The test of `ray2d_cast` without the divisions: the signs of the numerators of
`t` and `u` against the sign of `denom`. -/
theorem ray2d_cast_true_iff_sign (ray : Ray2D K) (wall : Boundary K) (i0 : Vector2 K) :
    (ray2d_cast ray wall i0).1 = true ↔
      (0 < ray2d_cast_denom ray wall ∧
        0 < (wall.begin.x - ray.pos.x) * (ray.pos.y - (ray.pos.y + ray.dir.y)) -
          (wall.begin.y - ray.pos.y) * (ray.pos.x - (ray.pos.x + ray.dir.x)) ∧
        (wall.begin.x - ray.pos.x) * (ray.pos.y - (ray.pos.y + ray.dir.y)) -
          (wall.begin.y - ray.pos.y) * (ray.pos.x - (ray.pos.x + ray.dir.x)) <
            ray2d_cast_denom ray wall ∧
        0 < -((wall.begin.x - wall.end.x) * (wall.begin.y - ray.pos.y) -
          (wall.begin.y - wall.end.y) * (wall.begin.x - ray.pos.x))) ∨
      (ray2d_cast_denom ray wall < 0 ∧
        (wall.begin.x - ray.pos.x) * (ray.pos.y - (ray.pos.y + ray.dir.y)) -
          (wall.begin.y - ray.pos.y) * (ray.pos.x - (ray.pos.x + ray.dir.x)) < 0 ∧
        ray2d_cast_denom ray wall <
          (wall.begin.x - ray.pos.x) * (ray.pos.y - (ray.pos.y + ray.dir.y)) -
            (wall.begin.y - ray.pos.y) * (ray.pos.x - (ray.pos.x + ray.dir.x)) ∧
        -((wall.begin.x - wall.end.x) * (wall.begin.y - ray.pos.y) -
          (wall.begin.y - wall.end.y) * (wall.begin.x - ray.pos.x)) < 0) := by
  rw [ray2d_cast_true_iff]
  unfold ray2d_cast_t ray2d_cast_u
  simp only
  rcases lt_trichotomy (ray2d_cast_denom ray wall) 0 with hd | hd | hd
  · rw [lt_div_iff_of_neg hd, div_lt_iff_of_neg hd, lt_div_iff_of_neg hd, zero_mul, one_mul]
    constructor
    · rintro ⟨_, h1, h2, h3⟩
      exact Or.inr ⟨hd, h1, h2, h3⟩
    · rintro (⟨h0, _⟩ | ⟨_, h1, h2, h3⟩)
      · exact absurd h0 (not_lt.2 hd.le)
      · exact ⟨hd.ne, h1, h2, h3⟩
  · rw [hd]
    simp
  · rw [lt_div_iff₀ hd, div_lt_iff₀ hd, lt_div_iff₀ hd, zero_mul, one_mul]
    constructor
    · rintro ⟨_, h1, h2, h3⟩
      exact Or.inl ⟨hd, h1, h2, h3⟩
    · rintro (⟨_, h1, h2, h3⟩ | ⟨h0, _⟩)
      · exact ⟨hd.ne', h1, h2, h3⟩
      · exact absurd h0 (not_lt.2 hd.le)

theorem border_right_iff (ya xb yb : K) (ray : Ray2D K) (i0 : Vector2 K)
    (hya : ya < ray.pos.y) (hyb : ray.pos.y < yb) (hxb : ray.pos.x < xb) :
    (ray2d_cast ray (boundary_init xb ya xb yb) i0).1 = true ↔
      0 < ray.dir.x ∧
      0 < (xb - ray.pos.x) * ray.dir.y + (ray.pos.y - ya) * ray.dir.x ∧
      (xb - ray.pos.x) * ray.dir.y < (yb - ray.pos.y) * ray.dir.x := by
  rw [ray2d_cast_true_iff_sign]
  unfold ray2d_cast_denom boundary_init
  simp only
  have hu : 0 < (yb - ya) * (xb - ray.pos.x) := mul_pos (by linarith) (by linarith)
  have hyy : 0 < yb - ya := by linarith
  constructor
  · rintro (⟨_, _, _, h3⟩ | ⟨h0, h1, h2, _⟩)
    · exfalso; nlinarith
    · refine ⟨?_, ?_, ?_⟩
      · by_contra hneg
        have : ray.dir.x ≤ 0 := not_lt.1 hneg
        have := mul_nonneg hyy.le (neg_nonneg.2 this)
        nlinarith
      · nlinarith
      · nlinarith
  · rintro ⟨h0, h1, h2⟩
    right
    have := mul_pos hyy h0
    refine ⟨?_, ?_, ?_, ?_⟩ <;> nlinarith

theorem border_top_iff (xa xb yb : K) (ray : Ray2D K) (i0 : Vector2 K)
    (hxa : xa < ray.pos.x) (hxb : ray.pos.x < xb) (hyb : ray.pos.y < yb) :
    (ray2d_cast ray (boundary_init xb yb xa yb) i0).1 = true ↔
      0 < ray.dir.y ∧
      (yb - ray.pos.y) * ray.dir.x < (xb - ray.pos.x) * ray.dir.y ∧
      0 < (ray.pos.x - xa) * ray.dir.y + (yb - ray.pos.y) * ray.dir.x := by
  rw [ray2d_cast_true_iff_sign]
  unfold ray2d_cast_denom boundary_init
  simp only
  have hu : 0 < (xb - xa) * (yb - ray.pos.y) := mul_pos (by linarith) (by linarith)
  have hxx : 0 < xb - xa := by linarith
  constructor
  · rintro (⟨_, _, _, h3⟩ | ⟨h0, h1, h2, _⟩)
    · exfalso; nlinarith
    · refine ⟨?_, ?_, ?_⟩
      · by_contra hneg
        have : ray.dir.y ≤ 0 := not_lt.1 hneg
        have := mul_nonneg hxx.le (neg_nonneg.2 this)
        nlinarith
      · nlinarith
      · nlinarith
  · rintro ⟨h0, h1, h2⟩
    right
    have := mul_pos hxx h0
    refine ⟨?_, ?_, ?_, ?_⟩ <;> nlinarith

theorem border_left_iff (xa ya yb : K) (ray : Ray2D K) (i0 : Vector2 K)
    (hya : ya < ray.pos.y) (hyb : ray.pos.y < yb) (hxa : xa < ray.pos.x) :
    (ray2d_cast ray (boundary_init xa yb xa ya) i0).1 = true ↔
      ray.dir.x < 0 ∧
      (ray.pos.x - xa) * ray.dir.y + (yb - ray.pos.y) * ray.dir.x < 0 ∧
      (ray.pos.y - ya) * ray.dir.x < (ray.pos.x - xa) * ray.dir.y := by
  rw [ray2d_cast_true_iff_sign]
  unfold ray2d_cast_denom boundary_init
  simp only
  have hu : 0 < (yb - ya) * (ray.pos.x - xa) := mul_pos (by linarith) (by linarith)
  have hyy : 0 < yb - ya := by linarith
  constructor
  · rintro (⟨_, _, _, h3⟩ | ⟨h0, h1, h2, _⟩)
    · exfalso; nlinarith
    · refine ⟨?_, ?_, ?_⟩
      · by_contra hneg
        have : 0 ≤ ray.dir.x := not_lt.1 hneg
        have := mul_nonneg hyy.le this
        nlinarith
      · nlinarith
      · nlinarith
  · rintro ⟨h0, h1, h2⟩
    right
    have := mul_pos hyy (neg_pos.2 h0)
    refine ⟨?_, ?_, ?_, ?_⟩ <;> nlinarith

theorem border_bottom_iff (xa ya xb : K) (ray : Ray2D K) (i0 : Vector2 K)
    (hxa : xa < ray.pos.x) (hxb : ray.pos.x < xb) (hya : ya < ray.pos.y) :
    (ray2d_cast ray (boundary_init xa ya xb ya) i0).1 = true ↔
      ray.dir.y < 0 ∧
      (ray.pos.x - xa) * ray.dir.y < (ray.pos.y - ya) * ray.dir.x ∧
      (xb - ray.pos.x) * ray.dir.y + (ray.pos.y - ya) * ray.dir.x < 0 := by
  rw [ray2d_cast_true_iff_sign]
  unfold ray2d_cast_denom boundary_init
  simp only
  have hu : 0 < (xb - xa) * (ray.pos.y - ya) := mul_pos (by linarith) (by linarith)
  have hxx : 0 < xb - xa := by linarith
  constructor
  · rintro (⟨_, _, _, h3⟩ | ⟨h0, h1, h2, _⟩)
    · exfalso; nlinarith
    · refine ⟨?_, ?_, ?_⟩
      · by_contra hneg
        have : 0 ≤ ray.dir.y := not_lt.1 hneg
        have := mul_nonneg hxx.le this
        nlinarith
      · nlinarith
      · nlinarith
  · rintro ⟨h0, h1, h2⟩
    right
    have := mul_pos hxx (neg_pos.2 h0)
    refine ⟨?_, ?_, ?_, ?_⟩ <;> nlinarith

/-- The case analysis behind the enclosing box, on the distances `a, b, c, d` of an
inner point to the right, left, top and bottom sides: some side is crossed in its
interior exactly when the direction is not zero and does not point at a corner. -/
theorem border_cases (a b c d dx dy : K) (ha : 0 < a) (hb : 0 < b) (hc : 0 < c) (hd : 0 < d) :
    ((dy < 0 ∧ b * dy < d * dx ∧ a * dy + d * dx < 0) ∨
      (0 < dx ∧ 0 < a * dy + d * dx ∧ a * dy < c * dx) ∨
      (0 < dy ∧ c * dx < a * dy ∧ 0 < b * dy + c * dx) ∨
      (dx < 0 ∧ b * dy + c * dx < 0 ∧ d * dx < b * dy)) ↔
    (dx ≠ 0 ∨ dy ≠ 0) ∧
      ¬ ((dx < 0 ∧ dy < 0 ∧ b * dy = d * dx) ∨
        (0 < dx ∧ dy < 0 ∧ a * dy + d * dx = 0) ∨
        (0 < dx ∧ 0 < dy ∧ a * dy = c * dx) ∨
        (dx < 0 ∧ 0 < dy ∧ b * dy + c * dx = 0)) := by
  constructor
  · rintro (⟨h0, h1, h2⟩ | ⟨h0, h1, h2⟩ | ⟨h0, h1, h2⟩ | ⟨h0, h1, h2⟩)
    · refine ⟨Or.inr h0.ne, ?_⟩
      rintro (⟨_, _, e⟩ | ⟨_, _, e⟩ | ⟨_, g, _⟩ | ⟨_, g, _⟩) <;> linarith
    · refine ⟨Or.inl h0.ne', ?_⟩
      rintro (⟨g, _, _⟩ | ⟨_, _, e⟩ | ⟨_, _, e⟩ | ⟨g, _, _⟩) <;> linarith
    · refine ⟨Or.inr h0.ne', ?_⟩
      rintro (⟨_, g, _⟩ | ⟨_, g, _⟩ | ⟨_, _, e⟩ | ⟨_, _, e⟩) <;> linarith
    · refine ⟨Or.inl h0.ne, ?_⟩
      rintro (⟨_, _, e⟩ | ⟨g, _, _⟩ | ⟨g, _, _⟩ | ⟨_, _, e⟩) <;> linarith
  · rintro ⟨hne, hcor⟩
    rcases lt_trichotomy dx 0 with hx | hx | hx
    · have bx : d * dx < 0 := mul_neg_of_pos_of_neg hd hx
      have cx : c * dx < 0 := mul_neg_of_pos_of_neg hc hx
      rcases lt_trichotomy dy 0 with hy | hy | hy
      · have ay : a * dy < 0 := mul_neg_of_pos_of_neg ha hy
        have by' : b * dy < 0 := mul_neg_of_pos_of_neg hb hy
        rcases lt_trichotomy (b * dy) (d * dx) with h | h | h
        · exact Or.inl ⟨hy, h, by linarith⟩
        · exact absurd (Or.inl ⟨hx, hy, h⟩) hcor
        · exact Or.inr (Or.inr (Or.inr ⟨hx, by linarith, h⟩))
      · subst hy
        exact Or.inr (Or.inr (Or.inr ⟨hx, by linarith, by linarith⟩))
      · have ay : 0 < a * dy := mul_pos ha hy
        have by' : 0 < b * dy := mul_pos hb hy
        rcases lt_trichotomy (b * dy + c * dx) 0 with h | h | h
        · exact Or.inr (Or.inr (Or.inr ⟨hx, h, by linarith⟩))
        · exact absurd (Or.inr (Or.inr (Or.inr ⟨hx, hy, h⟩))) hcor
        · exact Or.inr (Or.inr (Or.inl ⟨hy, by linarith, h⟩))
    · subst hx
      rcases lt_trichotomy dy 0 with hy | hy | hy
      · have ay : a * dy < 0 := mul_neg_of_pos_of_neg ha hy
        have by' : b * dy < 0 := mul_neg_of_pos_of_neg hb hy
        exact Or.inl ⟨hy, by linarith, by linarith⟩
      · subst hy
        rcases hne with h | h <;> exact absurd rfl h
      · have ay : 0 < a * dy := mul_pos ha hy
        have by' : 0 < b * dy := mul_pos hb hy
        exact Or.inr (Or.inr (Or.inl ⟨hy, by linarith, by linarith⟩))
    · have bx : 0 < d * dx := mul_pos hd hx
      have cx : 0 < c * dx := mul_pos hc hx
      rcases lt_trichotomy dy 0 with hy | hy | hy
      · have ay : a * dy < 0 := mul_neg_of_pos_of_neg ha hy
        have by' : b * dy < 0 := mul_neg_of_pos_of_neg hb hy
        rcases lt_trichotomy (a * dy + d * dx) 0 with h | h | h
        · exact Or.inl ⟨hy, by linarith, h⟩
        · exact absurd (Or.inr (Or.inl ⟨hx, hy, h⟩)) hcor
        · exact Or.inr (Or.inl ⟨hx, h, by linarith⟩)
      · subst hy
        exact Or.inr (Or.inl ⟨hx, by linarith, by linarith⟩)
      · have ay : 0 < a * dy := mul_pos ha hy
        have by' : 0 < b * dy := mul_pos hb hy
        rcases lt_trichotomy (a * dy) (c * dx) with h | h | h
        · exact Or.inr (Or.inl ⟨hx, by linarith, h⟩)
        · exact absurd (Or.inr (Or.inr (Or.inl ⟨hx, hy, h⟩))) hcor
        · exact Or.inr (Or.inr (Or.inl ⟨hy, h, by linarith⟩))

theorem ray2d_through_iff (ray : Ray2D K) (c : Vector2 K) :
    ray2d_through ray c ↔
      ∃ s : K, 0 < s ∧ c.x - ray.pos.x = s * ray.dir.x ∧ c.y - ray.pos.y = s * ray.dir.y := by
  unfold ray2d_through
  constructor
  · rintro ⟨s, hs, h1, h2⟩
    exact ⟨s, hs, by rw [h1]; ring, by rw [h2]; ring⟩
  · rintro ⟨s, hs, h1, h2⟩
    exact ⟨s, hs, by linarith, by linarith⟩

/-- An offset `(ex,ey)` with both coordinates positive is a positive multiple of
`(dx,dy)` exactly when both `dx` and `dy` are positive and the two are parallel. -/
theorem through_pos_pos (ex ey dx dy : K) (hex : 0 < ex) (hey : 0 < ey) :
    (∃ s : K, 0 < s ∧ ex = s * dx ∧ ey = s * dy) ↔ 0 < dx ∧ 0 < dy ∧ ex * dy = ey * dx := by
  constructor
  · rintro ⟨s, hs, h1, h2⟩
    have hdx : 0 < dx := pos_of_mul_pos_right (by rw [← h1]; exact hex) hs.le
    have hdy : 0 < dy := pos_of_mul_pos_right (by rw [← h2]; exact hey) hs.le
    exact ⟨hdx, hdy, by rw [h1, h2]; ring⟩
  · rintro ⟨hdx, hdy, h⟩
    refine ⟨ex / dx, div_pos hex hdx, ?_, ?_⟩
    · field_simp
    · field_simp
      linarith

/-- A ray that starts strictly inside an axis-aligned rectangle crosses the interior
of one of the four border walls exactly when its direction is not zero and it does
not pass through a corner of the rectangle. -/
theorem border_hit_iff (xa ya xb yb : K) (ray : Ray2D K) (i0 : Vector2 K)
    (hxa : xa < ray.pos.x) (hxb : ray.pos.x < xb) (hya : ya < ray.pos.y)
    (hyb : ray.pos.y < yb) :
    (∃ w ∈ border_walls xa ya xb yb, (ray2d_cast ray w i0).1 = true) ↔
      (ray.dir.x ≠ 0 ∨ ray.dir.y ≠ 0) ∧
        ¬ ∃ c ∈ border_corners xa ya xb yb, ray2d_through ray c := by
  have ha : 0 < xb - ray.pos.x := by linarith
  have hb : 0 < ray.pos.x - xa := by linarith
  have hc : 0 < yb - ray.pos.y := by linarith
  have hd : 0 < ray.pos.y - ya := by linarith
  have hwalls : (∃ w ∈ border_walls xa ya xb yb, (ray2d_cast ray w i0).1 = true) ↔
      ((ray2d_cast ray (boundary_init xa ya xb ya) i0).1 = true ∨
        (ray2d_cast ray (boundary_init xb ya xb yb) i0).1 = true ∨
        (ray2d_cast ray (boundary_init xb yb xa yb) i0).1 = true ∨
        (ray2d_cast ray (boundary_init xa yb xa ya) i0).1 = true) := by
    unfold border_walls
    simp only [List.mem_cons, List.mem_singleton, exists_eq_or_imp, exists_eq_left,
      List.not_mem_nil, false_and, exists_false, or_false]
  have hcorners : (∃ c ∈ border_corners xa ya xb yb, ray2d_through ray c) ↔
      (ray2d_through ray ⟨xa, ya⟩ ∨ ray2d_through ray ⟨xb, ya⟩ ∨
        ray2d_through ray ⟨xb, yb⟩ ∨ ray2d_through ray ⟨xa, yb⟩) := by
    unfold border_corners
    simp only [List.mem_cons, List.mem_singleton, exists_eq_or_imp, exists_eq_left,
      List.not_mem_nil, false_and, exists_false, or_false]
  have caa : ray2d_through ray ⟨xa, ya⟩ ↔
      ray.dir.x < 0 ∧ ray.dir.y < 0 ∧
        (ray.pos.x - xa) * ray.dir.y = (ray.pos.y - ya) * ray.dir.x := by
    rw [ray2d_through_iff]
    have h := through_pos_pos (ray.pos.x - xa) (ray.pos.y - ya) (-ray.dir.x) (-ray.dir.y) hb hd
    constructor
    · rintro ⟨s, hs, h1, h2⟩
      obtain ⟨g1, g2, g3⟩ := h.1 ⟨s, hs, by simp only at h1; linarith, by simp only at h2; linarith⟩
      exact ⟨by linarith, by linarith, by linarith⟩
    · rintro ⟨g1, g2, g3⟩
      obtain ⟨s, hs, h1, h2⟩ := h.2 ⟨by linarith, by linarith, by linarith⟩
      exact ⟨s, hs, by simp only; linarith, by simp only; linarith⟩
  have cba : ray2d_through ray ⟨xb, ya⟩ ↔
      0 < ray.dir.x ∧ ray.dir.y < 0 ∧
        (xb - ray.pos.x) * ray.dir.y + (ray.pos.y - ya) * ray.dir.x = 0 := by
    rw [ray2d_through_iff]
    have h := through_pos_pos (xb - ray.pos.x) (ray.pos.y - ya) ray.dir.x (-ray.dir.y) ha hd
    constructor
    · rintro ⟨s, hs, h1, h2⟩
      obtain ⟨g1, g2, g3⟩ := h.1 ⟨s, hs, h1, by simp only at h2; linarith⟩
      exact ⟨g1, by linarith, by linarith⟩
    · rintro ⟨g1, g2, g3⟩
      obtain ⟨s, hs, h1, h2⟩ := h.2 ⟨g1, by linarith, by linarith⟩
      exact ⟨s, hs, h1, by simp only; linarith⟩
  have cbb : ray2d_through ray ⟨xb, yb⟩ ↔
      0 < ray.dir.x ∧ 0 < ray.dir.y ∧
        (xb - ray.pos.x) * ray.dir.y = (yb - ray.pos.y) * ray.dir.x := by
    rw [ray2d_through_iff]
    exact through_pos_pos (xb - ray.pos.x) (yb - ray.pos.y) ray.dir.x ray.dir.y ha hc
  have cab : ray2d_through ray ⟨xa, yb⟩ ↔
      ray.dir.x < 0 ∧ 0 < ray.dir.y ∧
        (ray.pos.x - xa) * ray.dir.y + (yb - ray.pos.y) * ray.dir.x = 0 := by
    rw [ray2d_through_iff]
    have h := through_pos_pos (ray.pos.x - xa) (yb - ray.pos.y) (-ray.dir.x) ray.dir.y hb hc
    constructor
    · rintro ⟨s, hs, h1, h2⟩
      obtain ⟨g1, g2, g3⟩ := h.1 ⟨s, hs, by simp only at h1; linarith, h2⟩
      exact ⟨by linarith, g2, by linarith⟩
    · rintro ⟨g1, g2, g3⟩
      obtain ⟨s, hs, h1, h2⟩ := h.2 ⟨by linarith, g2, by linarith⟩
      exact ⟨s, hs, by simp only; linarith, h2⟩
  rw [hwalls, hcorners, border_bottom_iff xa ya xb ray i0 hxa hxb hya,
    border_right_iff ya xb yb ray i0 hya hyb hxb, border_top_iff xa xb yb ray i0 hxa hxb hyb,
    border_left_iff xa ya yb ray i0 hya hyb hxa, caa, cba, cbb, cab]
  exact border_cases (xb - ray.pos.x) (ray.pos.x - xa) (yb - ray.pos.y) (ray.pos.y - ya)
    ray.dir.x ray.dir.y ha hb hc hd

end Box

/-! ## Theorems: the enclosing box and the fan, over the reals -/

section BoxFan

theorem real_ray_45 (x y : ℝ) :
    (particle_init ⟨Real.cos, Real.sin, Real.sqrt, Real.pi / 180⟩ x y).rays ⟨45, by decide⟩ =
      ⟨⟨x, y⟩, ⟨Real.sqrt 2 / 2, Real.sqrt 2 / 2⟩⟩ := by
  rw [particle_init_rays]
  have e : (360 / (RAYS_COUNT : ℝ)) * ((45 : Nat) : ℝ) * (Real.pi / 180) = Real.pi / 4 := by
    unfold RAYS_COUNT; push_cast; ring
  simp only [ray2d_init, e, Real.cos_pi_div_four, Real.sin_pi_div_four, mul_one]

theorem real_ray_dir_ne_zero (x y : ℝ) (ray_idx : Fin RAYS_COUNT) :
    ((particle_init ⟨Real.cos, Real.sin, Real.sqrt, Real.pi / 180⟩ x y).rays ray_idx).dir.x ≠ 0 ∨
    ((particle_init ⟨Real.cos, Real.sin, Real.sqrt, Real.pi / 180⟩ x y).rays ray_idx).dir.y ≠ 0 := by
  rw [particle_init_rays]
  simp only [ray2d_init, mul_one]
  by_contra h
  push_neg at h
  have hsq := Real.cos_sq_add_sin_sq
    (360 / (RAYS_COUNT : ℝ) * ((ray_idx : Nat) : ℝ) * (Real.pi / 180))
  rw [h.1, h.2] at hsq
  norm_num at hsq

theorem real_ray_pos (x y : ℝ) (ray_idx : Fin RAYS_COUNT) :
    ((particle_init ⟨Real.cos, Real.sin, Real.sqrt, Real.pi / 180⟩ x y).rays ray_idx).pos =
      ⟨x, y⟩ := by
  rw [particle_init_rays]
  rfl

/-- C6 (amended): over the reals, for every axis-aligned rectangle given by its four
border walls and every particle position strictly inside it, each ray of the fan
has a valid intersection with at least one of the four walls if and only if it
does not pass through one of the four corners of the rectangle. -/
theorem border_scan (xa ya xb yb x y : ℝ) (hxa : xa < x) (hxb : x < xb) (hya : ya < y)
    (hyb : y < yb) (ray_idx : Fin RAYS_COUNT) :
    (∃ w ∈ border_walls xa ya xb yb,
      (ray2d_cast ((particle_init ⟨Real.cos, Real.sin, Real.sqrt, Real.pi / 180⟩ x y).rays ray_idx)
        w Vector2.zero).1 = true) ↔
    ¬ ∃ c ∈ border_corners xa ya xb yb,
      ray2d_through ((particle_init ⟨Real.cos, Real.sin, Real.sqrt, Real.pi / 180⟩ x y).rays ray_idx)
        c := by
  have hp := real_ray_pos x y ray_idx
  rw [border_hit_iff xa ya xb yb _ Vector2.zero (by rw [hp]; exact hxa) (by rw [hp]; exact hxb)
    (by rw [hp]; exact hya) (by rw [hp]; exact hyb)]
  exact and_iff_right (real_ray_dir_ne_zero x y ray_idx)

/-- The box of `main`, `(0,0)` to `(800,600)`, the particle at its centre and the
ray at 0 degrees: an instance of `border_scan`. -/
theorem border_scan_witness :
    (0 : ℝ) < 400 ∧ (400 : ℝ) < 800 ∧ (0 : ℝ) < 300 ∧ (300 : ℝ) < 600 ∧
    ((∃ w ∈ border_walls (0 : ℝ) 0 800 600,
      (ray2d_cast ((particle_init ⟨Real.cos, Real.sin, Real.sqrt, Real.pi / 180⟩
        400 300).rays ⟨0, by decide⟩) w Vector2.zero).1 = true) ↔
    ¬ ∃ c ∈ border_corners (0 : ℝ) 0 800 600,
      ray2d_through ((particle_init ⟨Real.cos, Real.sin, Real.sqrt, Real.pi / 180⟩
        400 300).rays ⟨0, by decide⟩) c) :=
  ⟨by norm_num, by norm_num, by norm_num, by norm_num,
    border_scan 0 0 800 600 400 300 (by norm_num) (by norm_num) (by norm_num) (by norm_num)
      ⟨0, by decide⟩⟩

/-- C6 as stated fails: in the rectangle from `(0,0)` to `(2,2)` with the particle at
`(1,1)`, strictly inside, the ray at 45 degrees has direction `(√2/2, √2/2)`, goes
through the corner `(2,2)`, and `ray2d_cast` returns false for all four border
walls. -/
theorem border_scan_counterexample :
    ((0 : ℝ) < 1 ∧ (1 : ℝ) < 2) ∧
    ((particle_init ⟨Real.cos, Real.sin, Real.sqrt, Real.pi / 180⟩ 1 1).rays ⟨45, by decide⟩).dir
      = ⟨Real.sqrt 2 / 2, Real.sqrt 2 / 2⟩ ∧
    ¬ ∃ w ∈ border_walls (0 : ℝ) 0 2 2,
      (ray2d_cast ((particle_init ⟨Real.cos, Real.sin, Real.sqrt, Real.pi / 180⟩
        1 1).rays ⟨45, by decide⟩) w Vector2.zero).1 = true := by
  have hr := real_ray_45 1 1
  refine ⟨⟨by norm_num, by norm_num⟩, by rw [hr], ?_⟩
  rw [hr, border_hit_iff (0 : ℝ) 0 2 2 _ Vector2.zero (by norm_num) (by norm_num) (by norm_num)
    (by norm_num)]
  rintro ⟨_, hno⟩
  apply hno
  refine ⟨⟨2, 2⟩, by simp [border_corners], Real.sqrt 2, Real.sqrt_pos.2 (by norm_num), ?_, ?_⟩
  · have h2 : Real.sqrt 2 * Real.sqrt 2 = 2 := Real.mul_self_sqrt (by norm_num)
    simp only
    linarith
  · have h2 : Real.sqrt 2 * Real.sqrt 2 = 2 := Real.mul_self_sqrt (by norm_num)
    simp only
    linarith

end BoxFan

end Raycasting
